import Mathlib

/-!
Shallow embedding of `part_b/modified_neural_network.py` (CSC311 final
project): a three-layer sigmoid autoencoder for imputing a
student-question response matrix, with a masked reconstruction loss,
an SGD training loop with a one-shot learning-rate decay, and a
threshold-based evaluator.

Modelling conventions:
* Python floats are modelled by elements of a `LinearOrderedField α`
  (instantiated at `ℚ` for executable witnesses and at `ℝ` where the
  logistic sigmoid is needed).
* A row of the raw training matrix is `Fin nq → Option α`; `none`
  models a NaN (missing) entry.
* Matrices and vectors are total functions out of `Fin`; a tensor of
  shape (rows × cols) is `Fin rows → Fin cols → α`.
* The elementwise activation is abstracted as a parameter `act` in the
  generic definitions; the program's activation is `sigmoid` over `ℝ`
  and `forward` below instantiates it.
* Python exceptions (ZeroDivisionError, IndexError) are modelled by
  `Option`: `none` is the raising outcome.
-/

namespace ModifiedNN

/-- One `nn.Linear(nin, nout)` layer: a weight matrix of shape
(nout × nin) and a bias vector of length nout. -/
structure Linear (α : Type) (nin nout : ℕ) where
  weight : Fin nout → Fin nin → α
  bias : Fin nout → α

/-- Application of a linear layer: `W · x + b`. -/
def Linear.apply {α : Type} [LinearOrderedField α] {nin nout : ℕ}
    (l : Linear α nin nout) (x : Fin nin → α) : Fin nout → α :=
  fun j => (∑ i, l.weight j i * x i) + l.bias j

/-- The `AutoEncoder` module: encode layer `g : nq → k`, hidden layer
`hidden : k → k`, decode layer `h : k → nq`, as in `AutoEncoder.__init__`. -/
structure AutoEncoder (α : Type) (nq k : ℕ) where
  g : Linear α nq k
  hidden : Linear α k k
  h : Linear α k nq

/-- Squared Frobenius norm of a weight matrix: `torch.norm(W, 2) ** 2`
is the sum of the squares of all entries. -/
def sqFrobNorm {α : Type} [LinearOrderedField α] {m n : ℕ}
    (W : Fin m → Fin n → α) : α :=
  ∑ j, ∑ i, (W j i) ^ 2

/-- `AutoEncoder.get_weight_norm`, translated from the source: it
computes the squared norms of all three weight matrices but returns
only `g_w_norm + h_w_norm`; the local `hidden_w_norm` is computed and
then dropped, exactly as in the Python code. -/
def get_weight_norm {α : Type} [LinearOrderedField α] {nq k : ℕ}
    (m : AutoEncoder α nq k) : α :=
  let g_w_norm := sqFrobNorm m.g.weight
  let hidden_w_norm := sqFrobNorm m.hidden.weight
  let h_w_norm := sqFrobNorm m.h.weight
  g_w_norm + h_w_norm

/-- Modelled from the spec: "`weight_norm()`: returns the sum of
squared Frobenius (L2) norms of the three weight matrices (biases
excluded)". This is the spec's version of `get_weight_norm`, kept
separate so it can be compared with the code's version above. -/
def get_weight_norm_spec {α : Type} [LinearOrderedField α] {nq k : ℕ}
    (m : AutoEncoder α nq k) : α :=
  sqFrobNorm m.g.weight + sqFrobNorm m.hidden.weight + sqFrobNorm m.h.weight

/-- The logistic sigmoid `torch.sigmoid`. -/
noncomputable def sigmoid (x : ℝ) : ℝ :=
  1 / (1 + Real.exp (-x))

/-- `AutoEncoder.forward` with the elementwise activation abstracted:
three affine transforms, each followed by the activation. -/
def forwardWith {α : Type} [LinearOrderedField α] {nq k : ℕ}
    (act : α → α) (m : AutoEncoder α nq k) (inputs : Fin nq → α) :
    Fin nq → α :=
  let out1 := fun j => act (m.g.apply inputs j)
  let out2 := fun j => act (m.hidden.apply out1 j)
  fun j => act (m.h.apply out2 j)

/-- `AutoEncoder.forward` as the program runs it: activation is the
logistic sigmoid over the reals. -/
noncomputable def forward {nq k : ℕ} (m : AutoEncoder ℝ nq k)
    (inputs : Fin nq → ℝ) : Fin nq → ℝ :=
  forwardWith sigmoid m inputs

/-- A concrete parameter state used to exhibit the `get_weight_norm`
slip: the hidden weight matrix is all ones while the encode and decode
weights and all biases are zero. -/
def hiddenOnlyModel : AutoEncoder ℚ 1 1 :=
  ⟨⟨fun _ _ => 0, fun _ => 0⟩, ⟨fun _ _ => 1, fun _ => 0⟩,
   ⟨fun _ _ => 0, fun _ => 0⟩⟩

/-! Masked reconstruction loss (body of the per-user step of `train`). -/

/-- The zero-filled row built by `load_data`: missing (NaN) entries of
the raw row become 0. -/
def zeroFill {α : Type} [Zero α] {nq : ℕ} (raw : Fin nq → Option α) :
    Fin nq → α :=
  fun j => (raw j).getD 0

/-- The masked target of one training sample: `target` starts as a
clone of `inputs` (the zero-filled row) and is overwritten with the
model's own `output` at every position where the raw row is NaN:
`target[0][nan_mask] = output[0][nan_mask]`. -/
def maskedTarget {α : Type} {nq : ℕ} (raw : Fin nq → Option α)
    (inputs output : Fin nq → α) : Fin nq → α :=
  fun j => if (raw j).isNone then output j else inputs j

/-- The per-sample loss of `train`:
`torch.sum((output - target) ** 2.) + lamb / 2 * model.get_weight_norm()`. -/
def sampleLoss {α : Type} [LinearOrderedField α] {nq : ℕ}
    (output target : Fin nq → α) (lamb wnorm : α) : α :=
  (∑ j, (output j - target j) ^ 2) + lamb / 2 * wnorm

/-- One user's loss as `train` computes it: the reconstruction is the
model's forward pass on the zero-filled row, the target is that row
masked with the reconstruction at NaN positions of the raw row, and the
regulariser uses `get_weight_norm`. -/
noncomputable def trainSampleLoss {nq k : ℕ} (m : AutoEncoder ℝ nq k)
    (raw : Fin nq → Option ℝ) (inputs : Fin nq → ℝ) (lamb : ℝ) : ℝ :=
  let output := forward m inputs
  let target := maskedTarget raw inputs output
  sampleLoss output target lamb (get_weight_norm m)

/-! Learning-rate schedule of `train`: `optimizer = optim.SGD(lr)` and
`optimizer_final = optim.SGD(lr*0.5)` are built up front, and at the
top of each epoch the loop runs `if epoch >= 40: optimizer =
optimizer_final`, so every update in that epoch uses the learning rate
held in the current optimizer. -/

/-- The learning rate in force during each epoch of a run of
`num_epoch` epochs: a fold over the epoch indices that carries the
current optimizer's rate, reassigning it to `lr * 0.5` whenever the
epoch index is at least 40, and records the rate used by that epoch's
updates. -/
def epochLrs {α : Type} [LinearOrderedField α] (lr : α) (num_epoch : ℕ) :
    List α :=
  ((List.range num_epoch).foldl
    (fun acc epoch =>
      let cur := if 40 ≤ epoch then lr * (1 / 2) else acc.1
      (cur, acc.2 ++ [cur]))
    (lr, [])).2

/-! Metric accumulation in `train`: each epoch appends one entry to
`train_loss_lst` and one to `valid_acc_lst`; after the loop the code
reads `valid_acc_lst[-1]`. The per-epoch numeric values are abstracted
as given sequences, since the claims about this part depend only on the
loop structure (one append to each list per epoch, no break: the
early-stopping block is commented out). -/

/-- The pair `(train_loss_lst, valid_acc_lst)` after `num_epoch`
iterations of the epoch loop of `train`. -/
def trainLists {α : Type} (stepLoss stepAcc : ℕ → α) (num_epoch : ℕ) :
    List α × List α :=
  (List.range num_epoch).foldl
    (fun acc epoch => (acc.1 ++ [stepLoss epoch], acc.2 ++ [stepAcc epoch]))
    ([], [])

/-- The final report `valid_acc_lst[-1]` of `train`: Python indexing
`[-1]` of an empty list raises IndexError, modelled as `none`. -/
def finalValidAcc {α : Type} (stepLoss stepAcc : ℕ → α) (num_epoch : ℕ) :
    Option α :=
  (trainLists stepLoss stepAcc num_epoch).2.getLast?

/-! The evaluator. -/

/-- A labeled triple `(user_id, question_id, is_correct)` of the
validation or test set (the Python dict of three parallel lists,
iterated in order, is modelled as one list of triples). -/
abbrev Triple (nq : ℕ) := ℕ × Fin nq × Bool

/-- The decision of `evaluate` for one triple:
`guess = output[0][question_id].item() >= 0.5` where `output` is the
model's reconstruction of the user's row of the input matrix. -/
def predictedCorrect {α : Type} [LinearOrderedField α] {nq : ℕ}
    (f : (Fin nq → α) → Fin nq → α) (train_data : ℕ → Fin nq → α)
    (t : Triple nq) : Bool :=
  decide ((1 : α) / 2 ≤ f (train_data t.1) t.2.1)

/-- The accumulation loop of `evaluate`: for each triple it increments
`correct` when the thresholded guess equals the label, and always
increments `total`; returns `(correct, total)`. -/
def evalCounts {α : Type} [LinearOrderedField α] {nq : ℕ}
    (f : (Fin nq → α) → Fin nq → α) (train_data : ℕ → Fin nq → α)
    (triples : List (Triple nq)) : ℕ × ℕ :=
  triples.foldl
    (fun acc t =>
      ((if predictedCorrect f train_data t = t.2.2 then acc.1 + 1 else acc.1),
       acc.2 + 1))
    (0, 0)

/-- The state `evaluate` can read or write: the model's parameters, its
train/eval mode flag (`model.eval()` clears it), and the input matrix. -/
structure EvalWorld (α : Type) (nq k : ℕ) where
  model : AutoEncoder α nq k
  training : Bool
  train_data : ℕ → Fin nq → α

/-- `evaluate`, with state threaded explicitly: it sets the mode flag
to eval (`model.eval()`), runs the counting loop using the model's
forward pass (which does not read the mode flag: the network has no
dropout or batch-norm layers), and returns `correct / float(total)`.
The division raises ZeroDivisionError when `total = 0`, modelled as
`none`. The returned world is the state after the call. -/
def evaluate {α : Type} [LinearOrderedField α] {nq k : ℕ} (act : α → α)
    (w : EvalWorld α nq k) (triples : List (Triple nq)) :
    Option α × EvalWorld α nq k :=
  let w' : EvalWorld α nq k := { w with training := false }
  let counts := evalCounts (forwardWith act w'.model) w'.train_data triples
  (if counts.2 = 0 then none else some ((counts.1 : α) / (counts.2 : α)), w')

/-- An all-zero parameter state over `ℚ`, used by executable witnesses. -/
def zeroQModel : AutoEncoder ℚ 1 1 :=
  ⟨⟨fun _ _ => 0, fun _ => 0⟩, ⟨fun _ _ => 0, fun _ => 0⟩,
   ⟨fun _ _ => 0, fun _ => 0⟩⟩

/-! Theorems. -/

/-- C1: the claim says `get_weight_norm()` returns the sum of the
squared Frobenius norms of all three weight matrices. On the parameter
state whose hidden weight matrix is all ones and whose other weights
are zero, the code returns 0 while the three-matrix sum of the spec is
1: the code computes `hidden_w_norm` and then omits it from the
returned sum. -/
theorem get_weight_norm_omits_hidden :
    get_weight_norm hiddenOnlyModel = 0 ∧
    get_weight_norm_spec hiddenOnlyModel = 1 := by
  constructor <;>
    simp [get_weight_norm, get_weight_norm_spec, hiddenOnlyModel, sqFrobNorm]

/-- C6: the claim says `get_weight_norm()` equals 0 only when all three
weight matrices are all-zero. On the parameter state whose hidden
weight matrix is all ones and whose other weights are zero, the value
is 0 (and indeed nonnegative) although the hidden weight matrix is
nonzero, because the code drops `hidden_w_norm` from the sum. -/
theorem weight_norm_zero_despite_nonzero_hidden :
    0 ≤ get_weight_norm hiddenOnlyModel ∧
    get_weight_norm hiddenOnlyModel = 0 ∧
    hiddenOnlyModel.hidden.weight 0 0 = 1 := by
  refine ⟨?_, ?_, rfl⟩ <;>
    simp [get_weight_norm, hiddenOnlyModel, sqFrobNorm]

/-- C3: for every pair (num_questions, k), every parameter state and
every input vector of length num_questions, the forward pass returns a
vector of length num_questions (enforced here by its type
`Fin nq → ℝ`) whose every entry lies strictly between 0 and 1; it is
three affine transforms each followed by the logistic sigmoid. -/
theorem forward_output_in_open_unit_interval (nq k : ℕ)
    (m : AutoEncoder ℝ nq k) (x : Fin nq → ℝ) (j : Fin nq) :
    0 < forward m x j ∧ forward m x j < 1 := by
  have hs : ∀ y : ℝ, 0 < sigmoid y ∧ sigmoid y < 1 := by
    intro y
    have he : (0 : ℝ) < Real.exp (-y) := Real.exp_pos _
    constructor
    · exact div_pos one_pos (by linarith)
    · rw [sigmoid, div_lt_one (by linarith)]
      linarith
  simp only [forward, forwardWith]
  exact hs _

/-- C8: evaluator determinism. Starting from any state, running
`evaluate` and then running it again on the resulting state with the
same arguments yields the same accuracy, since the forward pass depends
only on the parameters and the input matrix, which the first call
leaves untouched (it only clears the train-mode flag). -/
theorem evaluate_deterministic {α : Type} [LinearOrderedField α]
    {nq k : ℕ} (act : α → α) (w : EvalWorld α nq k)
    (triples : List (Triple nq)) :
    (evaluate act ((evaluate act w triples).2) triples).1 =
      (evaluate act w triples).1 := rfl

/-- C10: frame property of `evaluate`. The call leaves the model's
parameters (all weights and biases of the three layers, packed in the
`model` field) and every entry of the input matrix unchanged; the only
state change is that the train/eval mode flag is set to eval. -/
theorem evaluate_frame {α : Type} [LinearOrderedField α]
    {nq k : ℕ} (act : α → α) (w : EvalWorld α nq k)
    (triples : List (Triple nq)) :
    (evaluate act w triples).2.model = w.model ∧
    (evaluate act w triples).2.train_data = w.train_data ∧
    (evaluate act w triples).2.training = false :=
  ⟨rfl, rfl, rfl⟩

/-- C2: the masked-loss property of one training sample. Writing the
model's own reconstruction into the target at every NaN position of the
raw row makes the squared error of each unobserved position exactly 0,
the per-sample loss decomposes as the sum of squared errors over the
observed positions plus `lamb / 2` times the weight norm, and the
derivative of an unobserved position's squared-error term with respect
to its reconstructed value (the target held at the substituted
constant) is 0 there. -/
theorem masked_loss_ignores_unobserved {nq k : ℕ} (m : AutoEncoder ℝ nq k)
    (raw : Fin nq → Option ℝ) (inputs : Fin nq → ℝ) (lamb : ℝ) :
    (∀ j, raw j = none →
      (forward m inputs j -
        maskedTarget raw inputs (forward m inputs) j) ^ 2 = 0) ∧
    trainSampleLoss m raw inputs lamb =
      (∑ j ∈ Finset.univ.filter (fun j => (raw j).isSome),
        (forward m inputs j - inputs j) ^ 2) +
        lamb / 2 * get_weight_norm m ∧
    (∀ j, raw j = none →
      HasDerivAt
        (fun t : ℝ =>
          (t - maskedTarget raw inputs (forward m inputs) j) ^ 2)
        0 (forward m inputs j)) := by
  refine ⟨?_, ?_, ?_⟩
  · intro j hj
    simp [maskedTarget, hj]
  · rw [trainSampleLoss, sampleLoss]
    have hsplit :=
      Finset.sum_filter_add_sum_filter_not Finset.univ
        (fun j => (raw j).isSome)
        (fun j =>
          (forward m inputs j -
            maskedTarget raw inputs (forward m inputs) j) ^ 2)
    rw [← hsplit]
    have hobs :
        (∑ j ∈ Finset.univ.filter (fun j => (raw j).isSome),
          (forward m inputs j -
            maskedTarget raw inputs (forward m inputs) j) ^ 2) =
        ∑ j ∈ Finset.univ.filter (fun j => (raw j).isSome),
          (forward m inputs j - inputs j) ^ 2 := by
      refine Finset.sum_congr rfl ?_
      intro j hj
      rw [Finset.mem_filter] at hj
      have : (raw j).isNone = false := by
        rcases hj with ⟨-, hs⟩
        simp [Option.isNone, Option.isSome] at hs ⊢
        cases h : raw j with
        | none => rw [h] at hs; simp at hs
        | some v => simp
      simp [maskedTarget, this]
    have hunobs :
        (∑ j ∈ Finset.univ.filter (fun j => ¬ (raw j).isSome),
          (forward m inputs j -
            maskedTarget raw inputs (forward m inputs) j) ^ 2) = 0 := by
      refine Finset.sum_eq_zero ?_
      intro j hj
      rw [Finset.mem_filter] at hj
      have : (raw j).isNone = true := by
        rcases hj with ⟨-, hs⟩
        simp [Option.isNone_iff_eq_none, ← Option.not_isSome_iff_eq_none, hs]
      simp [maskedTarget, this]
    rw [hobs, hunobs, add_zero]
  · intro j hj
    have hb :
        maskedTarget raw inputs (forward m inputs) j = forward m inputs j := by
      simp [maskedTarget, hj]
    rw [hb]
    have h1 : HasDerivAt (fun t : ℝ => t - forward m inputs j) 1
        (forward m inputs j) := (hasDerivAt_id _).sub_const _
    have h2 := h1.pow 2
    simpa using h2

/-- All-zero parameter state over `ℝ`, used by the masked-loss witness. -/
def zeroRModel : AutoEncoder ℝ 1 1 :=
  ⟨⟨fun _ _ => 0, fun _ => 0⟩, ⟨fun _ _ => 0, fun _ => 0⟩,
   ⟨fun _ _ => 0, fun _ => 0⟩⟩

/-- Witness for C2: on a one-question row whose raw entry is missing,
the squared error of the unobserved position is exactly 0. -/
theorem masked_loss_ignores_unobserved_witness :
    ((fun _ : Fin 1 => (none : Option ℝ)) 0 = none) ∧
    (forward zeroRModel (fun _ => 0) 0 -
      maskedTarget (fun _ => none) (fun _ => 0)
        (forward zeroRModel (fun _ => 0)) 0) ^ 2 = 0 :=
  ⟨rfl,
   (masked_loss_ignores_unobserved zeroRModel (fun _ => none)
     (fun _ => 0) 0).1 0 rfl⟩

/-- The fold underlying `epochLrs`, in closed form: after processing
epochs `0, …, n-1` the current optimizer's rate is the original rate
iff no processed epoch index reached 40, and the recorded per-epoch
rates are the original rate below epoch 40 and half of it from epoch 40
on. -/
theorem epochLrs_fold_eq {α : Type} [LinearOrderedField α] (lr : α)
    (n : ℕ) :
    ((List.range n).foldl
      (fun acc epoch =>
        let cur := if 40 ≤ epoch then lr * (1 / 2) else acc.1
        (cur, acc.2 ++ [cur]))
      (lr, [])) =
      ((if n ≤ 40 then lr else lr * (1 / 2)),
       (List.range n).map
         (fun epoch => if epoch < 40 then lr else lr * (1 / 2))) := by
  induction n with
  | zero => simp
  | succ n ih =>
    rw [List.range_succ, List.foldl_append, ih, List.map_append]
    by_cases h : 40 ≤ n
    · have h1 : ¬ n < 40 := not_lt.mpr h
      have h2 : ¬ n + 1 ≤ 40 := by omega
      simp [h, h1, h2]
    · have h1 : n < 40 := not_le.mp h
      have h2 : n + 1 ≤ 40 := by omega
      have h3 : n ≤ 40 := by omega
      simp [h, h1, h2, h3]

/-- C4: the one-shot learning-rate step decay. In a run of `num_epoch`
epochs, every update performed during an epoch of index strictly below
40 uses the original learning rate, and every update during an epoch of
index 40 or greater uses exactly half of it. -/
theorem lr_one_shot_step_decay {α : Type} [LinearOrderedField α]
    (lr : α) (num_epoch e : ℕ) (h : e < num_epoch) :
    (epochLrs lr num_epoch).getD e 0 =
      if e < 40 then lr else lr * (1 / 2) := by
  rw [epochLrs, epochLrs_fold_eq]
  simp [List.getD_eq_getElem?_getD, List.getElem?_range, h]

/-- Witness for C4: in a 41-epoch run with original rate 2, epoch 39
uses rate 2 and epoch 40 uses rate 1. -/
theorem lr_one_shot_step_decay_witness :
    (39 < 41 ∧ (epochLrs (2 : ℚ) 41).getD 39 0 = 2) ∧
    (40 < 41 ∧ (epochLrs (2 : ℚ) 41).getD 40 0 = 2 * (1 / 2)) := by
  refine ⟨⟨by decide, ?_⟩, ⟨by decide, ?_⟩⟩
  · have h := lr_one_shot_step_decay (2 : ℚ) 41 39 (by decide)
    simpa using h
  · have h := lr_one_shot_step_decay (2 : ℚ) 41 40 (by decide)
    simpa using h

/-- The counting fold of `evaluate`, in closed form: from any starting
pair, `correct` grows by the number of triples whose thresholded guess
equals the label and `total` grows by the number of triples. -/
theorem evalCounts_fold_eq {α : Type} [LinearOrderedField α] {nq : ℕ}
    (f : (Fin nq → α) → Fin nq → α) (td : ℕ → Fin nq → α)
    (triples : List (Triple nq)) (c t0 : ℕ) :
    triples.foldl
      (fun acc t =>
        ((if predictedCorrect f td t = t.2.2 then acc.1 + 1 else acc.1),
         acc.2 + 1))
      (c, t0) =
      (c + triples.countP (fun t => decide (predictedCorrect f td t = t.2.2)),
       t0 + triples.length) := by
  induction triples generalizing c t0 with
  | nil => simp
  | cons tr rest ih =>
    simp only [List.foldl_cons, List.countP_cons, List.length_cons]
    rw [ih]
    by_cases h : predictedCorrect f td tr = tr.2.2 <;>
      simp [h, Prod.ext_iff] <;> omega

/-- C5: the decision rule of `evaluate`. The counting loop counts every
triple once in `total`, counts in `correct` exactly the triples whose
guess agrees with the label, the guess is true precisely when the
reconstructed value at the triple's question is at least 0.5, and in
particular a reconstructed value of exactly 0.5 is classified as
correct. -/
theorem evaluate_threshold_rule {α : Type} [LinearOrderedField α]
    {nq : ℕ} (f : (Fin nq → α) → Fin nq → α) (td : ℕ → Fin nq → α)
    (triples : List (Triple nq)) :
    (evalCounts f td triples).2 = triples.length ∧
    (evalCounts f td triples).1 =
      triples.countP (fun t => decide (predictedCorrect f td t = t.2.2)) ∧
    (∀ t : Triple nq,
      predictedCorrect f td t = true ↔ (1 : α) / 2 ≤ f (td t.1) t.2.1) ∧
    (∀ t : Triple nq,
      f (td t.1) t.2.1 = 1 / 2 → predictedCorrect f td t = true) := by
  refine ⟨?_, ?_, ?_, ?_⟩
  · rw [evalCounts, evalCounts_fold_eq]
    simp
  · rw [evalCounts, evalCounts_fold_eq]
    simp
  · intro t
    simp [predictedCorrect]
  · intro t h
    simp [predictedCorrect, h]

/-- Witness for C5: a reconstruction that is exactly 0.5 at the queried
question yields a guess of correct. -/
theorem evaluate_threshold_rule_witness :
    ((fun _ : Fin 1 → ℚ => fun _ : Fin 1 => (1 : ℚ) / 2)
      ((fun _ _ => 0) (0 : ℕ)) (0 : Fin 1) = 1 / 2) ∧
    predictedCorrect (fun _ _ => (1 : ℚ) / 2) (fun _ _ => 0)
      ((0 : ℕ), (0 : Fin 1), true) = true :=
  ⟨rfl,
   (evaluate_threshold_rule (fun _ _ => (1 : ℚ) / 2) (fun _ _ => 0)
     []).2.2.2 ((0 : ℕ), (0 : Fin 1), true) rfl⟩

/-- C7: on a non-empty triple set, `evaluate` returns
`correct / float(total)`, a value in [0, 1] with `total` the number of
triples; on an empty triple set the division by zero raises (result
`none`). -/
theorem evaluate_accuracy_fraction {α : Type} [LinearOrderedField α]
    {nq k : ℕ} (act : α → α) (w : EvalWorld α nq k)
    (triples : List (Triple nq)) :
    (triples = [] → (evaluate act w triples).1 = none) ∧
    (triples ≠ [] → ∃ r : α,
      (evaluate act w triples).1 = some r ∧
      r = ((evalCounts (forwardWith act w.model) w.train_data
              triples).1 : α) / (triples.length : α) ∧
      0 ≤ r ∧ r ≤ 1) := by
  have h2 : (evalCounts (forwardWith act w.model) w.train_data
      triples).2 = triples.length := by
    rw [evalCounts, evalCounts_fold_eq]
    simp
  have h1 : (evalCounts (forwardWith act w.model) w.train_data
      triples).1 ≤ triples.length := by
    rw [evalCounts, evalCounts_fold_eq]
    simpa using List.countP_le_length
      (fun t => decide (predictedCorrect (forwardWith act w.model)
        w.train_data t = t.2.2))
  have he : (evaluate act w triples).1 =
      if triples.length = 0 then none
      else some (((evalCounts (forwardWith act w.model) w.train_data
        triples).1 : α) / (triples.length : α)) := by
    simp only [evaluate]
    rw [h2]
  constructor
  · intro h
    rw [he, h]
    simp
  · intro h
    have hn : triples.length ≠ 0 := by
      simpa using h
    have hpos : (0 : α) < (triples.length : α) := by
      exact_mod_cast Nat.pos_of_ne_zero hn
    refine ⟨_, by rw [he, if_neg hn], rfl, ?_, ?_⟩
    · exact div_nonneg (Nat.cast_nonneg _) (Nat.cast_nonneg _)
    · rw [div_le_one hpos]
      exact_mod_cast h1

/-- A concrete evaluator state over `ℚ`: the all-zero model in training
mode with an all-zero input matrix. -/
def qWorld : EvalWorld ℚ 1 1 := ⟨zeroQModel, true, fun _ _ => 0⟩

/-- Witness for C7: a singleton triple set yields an accuracy
`correct / 1` lying in [0, 1]. -/
theorem evaluate_accuracy_fraction_witness :
    ([((0 : ℕ), (0 : Fin 1), true)] ≠ ([] : List (Triple 1))) ∧
    ∃ r : ℚ,
      (evaluate id qWorld [((0 : ℕ), (0 : Fin 1), true)]).1 = some r ∧
      r = ((evalCounts (forwardWith id qWorld.model) qWorld.train_data
              [((0 : ℕ), (0 : Fin 1), true)]).1 : ℚ) /
          (([((0 : ℕ), (0 : Fin 1), true)] : List (Triple 1)).length : ℚ) ∧
      0 ≤ r ∧ r ≤ 1 :=
  ⟨by decide,
   (evaluate_accuracy_fraction id qWorld
     [((0 : ℕ), (0 : Fin 1), true)]).2 (by decide)⟩

/-- The metric lists of `train`, in closed form: after `n` epochs they
are the per-epoch values of the first `n` epoch indices, in order. -/
theorem trainLists_eq {α : Type} (stepLoss stepAcc : ℕ → α) (n : ℕ) :
    trainLists stepLoss stepAcc n =
      ((List.range n).map stepLoss, (List.range n).map stepAcc) := by
  induction n with
  | zero => simp [trainLists]
  | succ n ih =>
    have h : trainLists stepLoss stepAcc (n + 1) =
        ((trainLists stepLoss stepAcc n).1 ++ [stepLoss n],
         (trainLists stepLoss stepAcc n).2 ++ [stepAcc n]) := by
      simp [trainLists, List.range_succ]
    rw [h, ih]
    simp [List.range_succ]

/-- C9: each epoch of `train` appends exactly one entry to each metric
list, so both lists have length `num_epoch`; with `num_epoch = 0` the
loop body never runs and the final report `valid_acc_lst[-1]` indexes
an empty list (IndexError, modelled as `none`), while for
`num_epoch ≥ 1` the report succeeds. -/
theorem train_metric_lists {α : Type} (stepLoss stepAcc : ℕ → α)
    (num_epoch : ℕ) :
    (trainLists stepLoss stepAcc num_epoch).1.length = num_epoch ∧
    (trainLists stepLoss stepAcc num_epoch).2.length = num_epoch ∧
    (num_epoch = 0 → finalValidAcc stepLoss stepAcc num_epoch = none) ∧
    (1 ≤ num_epoch →
      (finalValidAcc stepLoss stepAcc num_epoch).isSome = true) := by
  refine ⟨?_, ?_, ?_, ?_⟩
  · rw [trainLists_eq]
    simp
  · rw [trainLists_eq]
    simp
  · intro h
    subst h
    rfl
  · intro h
    obtain ⟨m, rfl⟩ : ∃ m, num_epoch = m + 1 := ⟨num_epoch - 1, by omega⟩
    rw [finalValidAcc, trainLists_eq]
    simp [List.range_succ, List.getLast?_concat]

/-- Witness for C9: a zero-epoch run fails to report a final validation
accuracy, while a one-epoch run reports one. -/
theorem train_metric_lists_witness :
    ((0 : ℕ) = 0 ∧ finalValidAcc (fun _ => (0 : ℚ)) (fun _ => 0) 0 = none) ∧
    (1 ≤ 1 ∧
      (finalValidAcc (fun _ => (0 : ℚ)) (fun _ => 0) 1).isSome = true) :=
  ⟨⟨rfl, (train_metric_lists (fun _ => (0 : ℚ)) (fun _ => 0) 0).2.2.1 rfl⟩,
   ⟨le_refl 1,
    (train_metric_lists (fun _ => (0 : ℚ)) (fun _ => 0) 1).2.2.2
      (le_refl 1)⟩⟩

end ModifiedNN
